import Mathlib

/-!
Shallow embedding of the `fixed::String` compile-time string library
(header `include/fixed-string`).

A C++ `fixed::String<N>` is a struct holding `std::array<char, N + 1> _arr`.
We model the buffer as a total function `Fin (N + 1) → ℤ`, a `char` being
modelled by its integral value (so that `char` arithmetic such as
`_arr[i] - '0'` is exact).  `std::size_t` arithmetic is modelled as natural
numbers reduced modulo `2 ^ w` for a word width `w` kept as a parameter.

Constructors whose body contains an `FS_ASSERT` (which prints a message and
calls `std::terminate` when the condition fails) are modelled as
`Option`-valued functions: `none` is the aborted run.  `operator[]`, whose
assertion can genuinely fire on bad indices, is likewise modelled as
`subscript : ℕ → Option ℤ`.  Loops inside `find`, `atoi`, `substring` and
`array_itoa` only ever index in bounds, so there they are modelled as the
plain reads they perform.
-/

namespace fixed

/-- Model of `fixed::String<N>`: the embedded buffer of `N + 1` char slots. -/
structure String (N : ℕ) where
  _arr : Fin (N + 1) → ℤ

/-- The terminator slot (index `N`) holds the zero character.  This is
invariant I1 of the data model; every public construction path establishes
it (claim C3). -/
def nullTerminated {N : ℕ} (s : String N) : Prop :=
  s._arr (Fin.last N) = 0

instance {N : ℕ} (s : String N) : Decidable (nullTerminated s) := by
  unfold nullTerminated; infer_instance

instance {N : ℕ} : DecidableEq (String N) := fun a b =>
  decidable_of_iff (a._arr = b._arr) (by cases a; cases b; simp)

/-- Model of `arr_from_str` (header, lines 71-79): checks
`FS_ASSERT(str[N] == '\0')` and then copies the `N + 1` characters verbatim.
`none` models the aborted run when the assertion fires. -/
def arr_from_str {N : ℕ} (str : Fin (N + 1) → ℤ) : Option (Fin (N + 1) → ℤ) :=
  if str (Fin.last N) = 0 then some str else none

namespace String

/-- Model of the default constructor `String()`: zero-initialization. -/
def mkEmpty (N : ℕ) : String N := ⟨fun _ => 0⟩

/-- Model of `String(char const (&str)[size + 1])`, which copies through
`arr_from_str` (and hence asserts that slot `N` is the terminator). -/
def fromLit {N : ℕ} (str : Fin (N + 1) → ℤ) : Option (String N) :=
  (arr_from_str str).map (⟨·⟩)

/-- Model of `String(std::array<char, size + 1>&& str)`: moves the buffer in
and asserts `_arr[size] == '\0'`. -/
def fromArr {N : ℕ} (a : Fin (N + 1) → ℤ) : Option (String N) :=
  if a (Fin.last N) = 0 then some ⟨a⟩ else none

/-- Model of `String(char c) requires (size == 1)`:
sets `_arr[0] = c; _arr[1] = '\0'`. -/
def fromChar (c : ℤ) : String 1 :=
  ⟨fun i => if (i : ℕ) = 0 then c else 0⟩

/-- Model of `operator[](i)`: `FS_ASSERT(i < size)` then `return _arr[i]`.
`none` models the bounds-check failure path (diagnostic + termination). -/
def subscript {N : ℕ} (s : String N) (i : ℕ) : Option ℤ :=
  if h : i < N then some (s._arr ⟨i, Nat.lt_succ_of_lt h⟩) else none

/-- The loop of `find(c)`: `for (i = 0; i < size; ++i) if (_arr[i] == c)
return i;` then `return size`.  The body reads through `operator[]`, whose
assertion `i < size` holds throughout the loop. -/
def findLoop {N : ℕ} (s : String N) (c : ℤ) (i : ℕ) : ℕ :=
  if h : i < N then
    (if s._arr ⟨i, Nat.lt_succ_of_lt h⟩ = c then i else findLoop s c (i + 1))
  else N
termination_by N - i

/-- Model of `find(c)` (header, line 97). -/
def find {N : ℕ} (s : String N) (c : ℤ) : ℕ := findLoop s c 0

/-- One conversion `int → std::size_t`: reduce modulo `2 ^ w`, as C++
does when the (possibly negative) `int` value `_arr[i] - '0'` is added to a
`std::size_t` accumulator. -/
def word (w : ℕ) (z : ℤ) : ℕ := (z % (2 ^ w : ℤ)).toNat

/-- The loop of `atoi()`: `r *= 10; r += _arr[i] - '0';` over all `N`
content characters, with `std::size_t` arithmetic modulo `2 ^ w`. -/
def atoiLoop (w : ℕ) {N : ℕ} (s : String N) (r i : ℕ) : ℕ :=
  if h : i < N then
    atoiLoop w s
      ((r * 10 % 2 ^ w + word w (s._arr ⟨i, Nat.lt_succ_of_lt h⟩ - 48)) % 2 ^ w)
      (i + 1)
  else r
termination_by N - i

/-- Model of `atoi()` (header, line 98): `r` starts at `0`, indices `0…N-1`
are consumed left to right. -/
def atoi (w : ℕ) {N : ℕ} (s : String N) : ℕ := atoiLoop w s 0 0

end String

/-- Model of `streq` (header, lines 110-117): `if constexpr (N != M) return
false;` else compare the two buffers element-wise over all `N + 1` slots
(`std::equal` over `_arr.begin() … _arr.end()`, terminator included). -/
def streq {N M : ℕ} (a : String N) (b : String M) : Bool :=
  if h : N = M then
    decide (∀ i : Fin (N + 1), a._arr i = b._arr (Fin.cast (by rw [h]) i))
  else false

/-- Model of `operator==` (header, lines 119-125): delegates to `streq`. -/
def stringEq {N M : ℕ} (a : String N) (b : String M) : Bool := streq a b

/-- Model of `operator+` (header, lines 127-137): the result is
zero-initialized, the first `N` slots receive the left operand's content,
the next `M` slots the right operand's content, and slot `N + M` is set to
the terminator. -/
def String.append {N M : ℕ} (a : String N) (b : String M) : String (N + M) :=
  ⟨fun i =>
    if h : (i : ℕ) < N then a._arr ⟨i, Nat.lt_succ_of_lt h⟩
    else if h' : (i : ℕ) < N + M then
      b._arr ⟨(i : ℕ) - N, by omega⟩
    else 0⟩

/-- Model of `substring<Begin, End>` (header, lines 157-167).  The C++
`requires ((Begin >= 0) and (End <= N) and (Begin <= End))` clause rejects
bad bounds at compile time; here it is the two proof obligations.  The body
default-constructs `r` (all zeros), copies `s[Begin + i]` into slot `i` for
`i < End - Begin` (the `operator[]` assertion `Begin + i < N` holds
throughout), and writes the terminator at slot `End - Begin`. -/
def substring (Begin End' : ℕ) {N : ℕ} (hBE : Begin ≤ End') (hEN : End' ≤ N)
    (s : String N) : String (End' - Begin) :=
  ⟨fun i =>
    if h : (i : ℕ) < End' - Begin then
      s._arr ⟨Begin + (i : ℕ), by omega⟩
    else 0⟩

/-- Model of `log10<x>` (header, lines 169-170):
`x ? 1 + log10<x / 10U> : 0`. -/
def log10 (x : ℕ) : ℕ :=
  if x = 0 then 0 else 1 + log10 (x / 10)
decreasing_by exact Nat.div_lt_self (Nat.pos_of_ne_zero (by assumption)) (by norm_num)

/-- The digit-filling loop of `array_itoa`:
`for (auto n{x}; n > 0; n /= 10U) arr[i--] = n % 10U + '0';`.
The buffer is modelled as a total function on ℕ (all C++ writes are in
bounds: `i` starts at `log10 x` and only decreases while digits remain). -/
def itoaLoop (a : ℕ → ℤ) (i n : ℕ) : ℕ → ℤ :=
  if n = 0 then a
  else itoaLoop (Function.update a i ((n % 10 : ℕ) + 48)) (i - 1) (n / 10)
termination_by n
decreasing_by exact Nat.div_lt_self (Nat.pos_of_ne_zero (by assumption)) (by norm_num)

/-- Model of `array_itoa<x>` (header, lines 172-182): zero-initialize a
buffer of `log10 x + 2` slots, write the terminator at slot `log10 x + 1`,
then run the digit loop starting at index `log10 x`. -/
def array_itoa (x : ℕ) : ℕ → ℤ :=
  itoaLoop (Function.update (fun _ => 0) (log10 x + 1) 0) (log10 x) x

/-- Model of `itoa<x>` (header, lines 184-185):
`String<log10<x> + 1>` built from `array_itoa<x>()` (whose constructor
assertion `_arr[size] == '\0'` holds, see `array_itoa_terminator`). -/
def itoa (x : ℕ) : String (log10 x + 1) :=
  ⟨fun i => array_itoa x (i : ℕ)⟩

/-- The characters of a string as a total function on ℕ (reads out of the
buffer return 0 outside its `N + 1` slots); convenient for sums. -/
def chars {N : ℕ} (s : String N) : ℕ → ℤ :=
  fun j => if h : j < N + 1 then s._arr ⟨j, h⟩ else 0

/-- Concrete example: the one-character string "a". -/
def exa : String 1 := String.fromChar 97

/-- Concrete example: the one-character string "b". -/
def exb : String 1 := String.fromChar 98

/-- Concrete example: the two-character string "ab". -/
def exab : String 2 := String.append exa exb

/-! ### Helper lemmas -/

/-- The digit loop never writes above its starting index. -/
lemma itoaLoop_out (a : ℕ → ℤ) (i n j : ℕ) (h : i < j) :
    itoaLoop a i n j = a j := by
  induction n using Nat.strong_induction_on generalizing a i with
  | _ n ih =>
    rw [itoaLoop]
    split
    · rfl
    · rename_i hn
      rw [ih (n / 10) (Nat.div_lt_self (Nat.pos_of_ne_zero hn) (by norm_num))
            _ (i - 1) (by omega)]
      exact Function.update_noteq (by omega) _ a

/-- The buffer built by `array_itoa<x>` carries the terminator at slot
`log10 x + 1`, so the assertion in the constructor used by `itoa` holds. -/
lemma array_itoa_terminator (x : ℕ) : array_itoa x (log10 x + 1) = 0 := by
  unfold array_itoa
  rw [itoaLoop_out _ _ _ _ (by omega)]
  exact Function.update_same _ _ _

/-- Full characterization of the `find` loop from start index `i`. -/
lemma findLoop_spec {N : ℕ} (s : String N) (c : ℤ) (i : ℕ) :
    (String.findLoop s c i ≤ N) ∧
    (∀ h : String.findLoop s c i < N,
      s._arr ⟨String.findLoop s c i, Nat.lt_succ_of_lt h⟩ = c) ∧
    (∀ j, i ≤ j → j < String.findLoop s c i → ∀ hN : j < N,
      s._arr ⟨j, Nat.lt_succ_of_lt hN⟩ ≠ c) ∧
    ((∀ j, ∀ hN : j < N, i ≤ j → s._arr ⟨j, Nat.lt_succ_of_lt hN⟩ ≠ c) →
      String.findLoop s c i = N) := by
  induction i using String.findLoop.induct s c with
  | case1 i h hm =>
    have hv : String.findLoop s c i = i := by
      rw [String.findLoop]; simp [h, hm]
    rw [hv]
    refine ⟨by omega, fun _ => hm, fun j hj hlt hN => by omega, fun hall => ?_⟩
    exact absurd hm (hall i h (le_refl i))
  | case2 i h hm ih =>
    have hv : String.findLoop s c i = String.findLoop s c (i + 1) := by
      rw [String.findLoop]; simp [h, hm]
    rw [hv]
    obtain ⟨ih1, ih2, ih3, ih4⟩ := ih
    refine ⟨ih1, ih2, ?_, ?_⟩
    · intro j hj hlt hN
      rcases Nat.eq_or_lt_of_le hj with rfl | hj'
      · exact hm
      · exact ih3 j hj' hlt hN
    · intro hall
      exact ih4 (fun j hN hj => hall j hN (by omega))
  | case3 i h =>
    have hv : String.findLoop s c i = N := by
      rw [String.findLoop]; simp [h]
    rw [hv]
    exact ⟨le_refl N, fun hlt => absurd hlt (lt_irrefl N),
      fun j hj hlt hN => absurd hN (by omega), fun _ => rfl⟩

/-- The value reduced modulo the word size is below the word size. -/
lemma word_lt (w : ℕ) (z : ℤ) : String.word w z < 2 ^ w := by
  have h1 : 0 ≤ z % ((2 : ℤ) ^ w) := Int.emod_nonneg z (by positivity)
  have h2 : z % ((2 : ℤ) ^ w) < (2 : ℤ) ^ w := Int.emod_lt_of_pos z (by positivity)
  have hcast : ((2 : ℤ) ^ w) = ((2 ^ w : ℕ) : ℤ) := by push_cast; ring
  unfold String.word
  rw [hcast] at h1 h2 ⊢
  omega

/-- Casting the reduced value back to ℤ is reduction modulo `2 ^ w`. -/
lemma word_cast (w : ℕ) (z : ℤ) :
    ((String.word w z : ℕ) : ℤ) = z % (2 : ℤ) ^ w :=
  Int.toNat_of_nonneg (Int.emod_nonneg z (by positivity))

/-- Two integers congruent modulo `2 ^ w` reduce to the same word. -/
lemma word_congr {w : ℕ} {x y : ℤ} (h : x % (2 : ℤ) ^ w = y % (2 : ℤ) ^ w) :
    String.word w x = String.word w y := by
  unfold String.word
  rw [h]

/-- Reading `chars` strictly below `N` is reading the buffer. -/
lemma chars_lt {N : ℕ} (s : String N) (j : ℕ) (h : j < N) :
    chars s j = s._arr ⟨j, Nat.lt_succ_of_lt h⟩ := by
  unfold chars
  rw [dif_pos (Nat.lt_succ_of_lt h)]

/-- Closed form of the `atoi` accumulation loop from index `i` with
accumulator `r`: the result is `r` shifted past the remaining digits plus
the positional value of the remaining characters, reduced modulo `2 ^ w`. -/
lemma atoiLoop_spec (w : ℕ) {N : ℕ} (s : String N) (i r : ℕ) :
    r < 2 ^ w →
    String.atoiLoop w s r i =
      String.word w ((r : ℤ) * 10 ^ (N - i) +
        ∑ j in Finset.Ico i N, (chars s j - 48) * 10 ^ (N - 1 - j)) := by
  induction r, i using String.atoiLoop.induct w s with
  | case1 r i h ih =>
    intro hr
    have hv : String.atoiLoop w s r i = String.atoiLoop w s
        ((r * 10 % 2 ^ w +
          String.word w (s._arr ⟨i, Nat.lt_succ_of_lt h⟩ - 48)) % 2 ^ w)
        (i + 1) := by
      rw [String.atoiLoop]; simp [h]
    have hnext : (r * 10 % 2 ^ w +
        String.word w (s._arr ⟨i, Nat.lt_succ_of_lt h⟩ - 48)) % 2 ^ w
        < 2 ^ w := Nat.mod_lt _ (by positivity)
    rw [hv, ih hnext]
    apply word_congr
    set c : ℤ := chars s i with hc
    have harr : s._arr ⟨i, Nat.lt_succ_of_lt h⟩ = c := (chars_lt s i h).symm
    have hS : ∑ j in Finset.Ico i N, (chars s j - 48) * 10 ^ (N - 1 - j) =
        (c - 48) * 10 ^ (N - 1 - i) +
          ∑ j in Finset.Ico (i + 1) N, (chars s j - 48) * 10 ^ (N - 1 - j) :=
      Finset.sum_eq_sum_Ico_succ_bot h _
    have hr' : (((r * 10 % 2 ^ w +
        String.word w (s._arr ⟨i, Nat.lt_succ_of_lt h⟩ - 48)) % 2 ^ w : ℕ) : ℤ)
        = (((r : ℤ) * 10) % (2 : ℤ) ^ w + (c - 48) % (2 : ℤ) ^ w) % (2 : ℤ) ^ w := by
      rw [harr]
      push_cast [word_cast]
      ring_nf
    have e1 : ((r : ℤ) * 10) % (2 : ℤ) ^ w ≡ (r : ℤ) * 10 [ZMOD (2 : ℤ) ^ w] :=
      Int.emod_emod_of_dvd _ dvd_rfl
    have e2 : (c - 48) % (2 : ℤ) ^ w ≡ c - 48 [ZMOD (2 : ℤ) ^ w] :=
      Int.emod_emod_of_dvd _ dvd_rfl
    have e3 : (((r : ℤ) * 10) % (2 : ℤ) ^ w + (c - 48) % (2 : ℤ) ^ w) % (2 : ℤ) ^ w
        ≡ ((r : ℤ) * 10) % (2 : ℤ) ^ w + (c - 48) % (2 : ℤ) ^ w
          [ZMOD (2 : ℤ) ^ w] :=
      Int.emod_emod_of_dvd _ dvd_rfl
    have h1 : (((r * 10 % 2 ^ w +
        String.word w (s._arr ⟨i, Nat.lt_succ_of_lt h⟩ - 48)) % 2 ^ w : ℕ) : ℤ)
        ≡ (r : ℤ) * 10 + (c - 48) [ZMOD (2 : ℤ) ^ w] := by
      rw [hr']
      exact e3.trans (e1.add e2)
    have h2 := (h1.mul_right ((10 : ℤ) ^ (N - (i + 1)))).add_right
      (∑ j in Finset.Ico (i + 1) N, (chars s j - 48) * 10 ^ (N - 1 - j))
    have hring : (((r : ℤ) * 10 + (c - 48)) * 10 ^ (N - (i + 1)) +
          ∑ j in Finset.Ico (i + 1) N, (chars s j - 48) * 10 ^ (N - 1 - j))
        = ((r : ℤ) * 10 ^ (N - i) + ((c - 48) * 10 ^ (N - 1 - i) +
          ∑ j in Finset.Ico (i + 1) N, (chars s j - 48) * 10 ^ (N - 1 - j))) := by
      have hpow : (10 : ℤ) ^ (N - i) = 10 ^ (N - (i + 1)) * 10 := by
        rw [← pow_succ]
        congr 1
        omega
      have he : N - 1 - i = N - (i + 1) := by omega
      rw [hpow, he]
      ring
    rw [hS, ← hring]
    exact h2
  | case2 r i h =>
    intro hr
    have hv : String.atoiLoop w s r i = r := by
      rw [String.atoiLoop]; simp [h]
    have hIco : Finset.Ico i N = ∅ := Finset.Ico_eq_empty (by omega)
    have hNi : N - i = 0 := by omega
    rw [hv, hIco, hNi, Finset.sum_empty]
    unfold String.word
    have hcast : ((2 : ℤ) ^ w) = ((2 ^ w : ℕ) : ℤ) := by push_cast; ring
    rw [pow_zero, mul_one, add_zero,
      Int.emod_eq_of_lt (by positivity) (by rw [hcast]; exact_mod_cast hr)]
    exact (Int.toNat_natCast r).symm

/-! ### Claims -/

/-- Claim C3: every public construction path (default, literal, raw buffer,
single character) and every derived-string operation (`operator+`,
`substring`, `itoa`) leaves the zero terminator in the buffer slot at index
`N`; no operation mutates an existing instance (every operation of the model
is a pure function returning a fresh value, as in the source, where all
operations are `const` or build a new `String`). -/
theorem C3_terminator_invariant {N M : ℕ}
    (str : Fin (N + 1) → ℤ) (t : String N) (ht : String.fromLit str = some t)
    (buf : Fin (N + 1) → ℤ) (u : String N) (hu : String.fromArr buf = some u)
    (c : ℤ) (a : String N) (b : String M)
    (Begin End' : ℕ) (hBE : Begin ≤ End') (hEN : End' ≤ N)
    (s : String N) (x : ℕ) :
    nullTerminated (String.mkEmpty N) ∧ nullTerminated t ∧ nullTerminated u ∧
    nullTerminated (String.fromChar c) ∧
    nullTerminated (String.append a b) ∧
    nullTerminated (substring Begin End' hBE hEN s) ∧
    nullTerminated (itoa x) := by
  refine ⟨rfl, ?_, ?_, rfl, ?_, ?_, ?_⟩
  · unfold String.fromLit arr_from_str at ht
    split at ht
    · rename_i h
      have ht' : some (String.mk str) = some t := ht
      injection ht' with ht''
      subst ht''
      exact h
    · exact Option.noConfusion ht
  · unfold String.fromArr at hu
    split at hu
    · rename_i h
      injection hu with hu'
      subst hu'
      exact h
    · exact Option.noConfusion hu
  · show (String.append a b)._arr ⟨N + M, Nat.lt_succ_self _⟩ = 0
    simp only [String.append]
    rw [dif_neg (by omega), dif_neg (by omega)]
  · show (substring Begin End' hBE hEN s)._arr ⟨End' - Begin, Nat.lt_succ_self _⟩ = 0
    simp only [substring]
    rw [dif_neg (by omega)]
  · show array_itoa x (log10 x + 1) = 0
    exact array_itoa_terminator x

/-- Witness for C3 at concrete inputs. -/
theorem C3_terminator_invariant_witness :
    nullTerminated (String.mkEmpty 1) ∧ nullTerminated (String.mkEmpty 1) ∧
    nullTerminated (String.mkEmpty 1) ∧ nullTerminated (String.fromChar 97) ∧
    nullTerminated (String.append exa exb) ∧
    nullTerminated (substring 0 1 (Nat.zero_le 1) (le_refl 1) exa) ∧
    nullTerminated (itoa 42) :=
  C3_terminator_invariant (fun _ => 0) (String.mkEmpty 1) rfl
    (fun _ => 0) (String.mkEmpty 1) rfl
    97 exa exb 0 1 (Nat.zero_le 1) (le_refl 1) exa 42

/-- Claim C5: `a + b` is a `String<N + M>` whose slots `0 … N-1` hold `a`'s
content in order, whose slots `N … N+M-1` hold `b`'s content in order, and
whose slot `N + M` holds a fresh zero terminator. -/
theorem C5_append_spec {N M : ℕ} (a : String N) (b : String M) :
    (∀ i : Fin N,
      (String.append a b)._arr ⟨(i : ℕ), by have := i.isLt; omega⟩ =
        a._arr i.castSucc) ∧
    (∀ j : Fin M,
      (String.append a b)._arr ⟨N + (j : ℕ), by have := j.isLt; omega⟩ =
        b._arr j.castSucc) ∧
    (String.append a b)._arr (Fin.last (N + M)) = 0 := by
  refine ⟨fun i => ?_, fun j => ?_, ?_⟩
  · simp only [String.append]
    rw [dif_pos i.isLt]
    exact congrArg a._arr (Fin.ext rfl)
  · simp only [String.append]
    rw [dif_neg (by omega), dif_pos (by have := j.isLt; omega)]
    exact congrArg b._arr (Fin.ext (by simp))
  · show (String.append a b)._arr ⟨N + M, Nat.lt_succ_self _⟩ = 0
    simp only [String.append]
    rw [dif_neg (by omega), dif_neg (by omega)]

/-- Witness for C5 at concrete inputs: "a" + "b" is "ab" with terminator. -/
theorem C5_append_spec_witness :
    (String.append exa exb)._arr ⟨0, by omega⟩ = 97 ∧
    (String.append exa exb)._arr ⟨1, by omega⟩ = 98 ∧
    (String.append exa exb)._arr (Fin.last 2) = 0 :=
  ⟨((C5_append_spec exa exb).1 0).trans (by decide),
   ((C5_append_spec exa exb).2.1 0).trans (by decide),
   (C5_append_spec exa exb).2.2⟩

/-- Claim C4: `streq(a, b)` (and `operator==`, which delegates to it)
returns true iff the lengths agree and the content characters agree
position-wise; different lengths give false unconditionally, settled by the
`if constexpr (N != M)` branch without scanning characters.  The instances
are null-terminated (invariant I1, established by every construction path,
claim C3), which is what makes the source's comparison of all `N + 1` slots
coincide with content equality. -/
theorem C4_streq_spec {N M : ℕ} (a : String N) (b : String M)
    (ha : nullTerminated a) (hb : nullTerminated b) :
    (streq a b = true ↔ ∃ h : N = M, ∀ i : Fin N,
      a._arr i.castSucc = b._arr (Fin.cast (congrArg Nat.succ h) i.castSucc)) ∧
    (N ≠ M → streq a b = false) ∧
    stringEq a b = streq a b := by
  refine ⟨?_, fun hne => ?_, rfl⟩
  · unfold streq
    split
    · rename_i h
      subst h
      rw [decide_eq_true_eq]
      constructor
      · intro hall
        exact ⟨rfl, fun i => hall i.castSucc⟩
      · rintro ⟨h, hc⟩ i
        induction i using Fin.lastCases with
        | last => exact ha.trans hb.symm
        | cast j => exact hc j
    · rename_i hne
      constructor
      · intro hf
        exact absurd hf (by simp)
      · rintro ⟨h, -⟩
        exact absurd h hne
  · unfold streq
    rw [dif_neg hne]

/-- Witness for C4 at concrete inputs: "ab" equals itself, and a length-1
string is unequal to a length-2 string by lengths alone. -/
theorem C4_streq_spec_witness :
    streq exab exab = true ∧ streq exa exab = false :=
  ⟨(C4_streq_spec exab exab (by decide) (by decide)).1.mpr
      ⟨rfl, fun _ => rfl⟩,
   (C4_streq_spec exa exab (by decide) (by decide)).2.1 (by omega)⟩

/-- Claim C6: concatenation is associative on content: at every position
`i < N1 + N2 + N3`, `(a + b) + c` and `a + (b + c)` store the same
character. -/
theorem C6_append_assoc {N1 N2 N3 : ℕ}
    (a : String N1) (b : String N2) (c : String N3)
    (i : ℕ) (h : i < N1 + N2 + N3) :
    (String.append (String.append a b) c)._arr ⟨i, by omega⟩ =
    (String.append a (String.append b c))._arr ⟨i, by omega⟩ := by
  simp only [String.append]
  split_ifs <;>
    first
      | rfl
      | (exfalso; omega)
      | (apply congrArg; apply Fin.ext; simp; try omega)

/-- Witness for C6 at concrete inputs: position 1 of ("a" + "b") + "a"
agrees with "a" + ("b" + "a"). -/
theorem C6_append_assoc_witness :
    (String.append (String.append exa exb) exa)._arr ⟨1, by omega⟩ =
    (String.append exa (String.append exb exa))._arr ⟨1, by omega⟩ :=
  C6_append_assoc exa exb exa 1 (by omega)

/-- Claim C7: `substring<Begin, End>` (whose precondition
`0 ≤ Begin ≤ End ≤ N` is a compile-time `requires` clause in the source,
modelled by the proof obligations `hBE`, `hEN`) yields the half-open slice:
slot `i` equals the source's slot `Begin + i`, slot `End - Begin` is the
terminator, `substring<0, N>` reproduces the (null-terminated) source
exactly, and `substring<k, k>` is the length-0 instance. -/
theorem C7_substring_spec {N : ℕ} (Begin End' : ℕ) (hBE : Begin ≤ End')
    (hEN : End' ≤ N) (s : String N) (hs : nullTerminated s) :
    (∀ i : Fin (End' - Begin),
      (substring Begin End' hBE hEN s)._arr i.castSucc =
        s._arr ⟨Begin + (i : ℕ), by have := i.isLt; omega⟩) ∧
    (substring Begin End' hBE hEN s)._arr (Fin.last (End' - Begin)) = 0 ∧
    substring 0 N (Nat.zero_le N) (le_refl N) s = s ∧
    substring Begin Begin (le_refl Begin) (le_trans hBE hEN) s =
      String.mkEmpty (Begin - Begin) := by
  refine ⟨fun i => ?_, ?_, ?_, ?_⟩
  · simp only [substring]
    rw [dif_pos (by simp)]
    exact congrArg s._arr (Fin.ext (by simp))
  · show (substring Begin End' hBE hEN s)._arr
      ⟨End' - Begin, Nat.lt_succ_self _⟩ = 0
    simp only [substring]
    rw [dif_neg (by omega)]
  · cases s with
    | mk f =>
      simp only [substring]
      apply congrArg String.mk
      funext j
      split
      · exact congrArg f (Fin.ext (by simp))
      · rename_i hj
        have hjlt := j.isLt
        have : j = Fin.last N := Fin.ext (by simp only [Fin.val_last]; omega)
        rw [this]
        exact hs.symm
  · apply congrArg String.mk
    funext j
    exact dif_neg (by omega)

/-- Witness for C7 at concrete inputs, on "ab": slice [0, 1) is "a",
slice terminator, full-range round-trip, and the empty slice. -/
theorem C7_substring_spec_witness :
    (substring 0 1 (Nat.zero_le 1) (by omega) exab)._arr
      ((0 : Fin 1).castSucc) = 97 ∧
    (substring 0 1 (Nat.zero_le 1) (by omega) exab)._arr (Fin.last 1) = 0 ∧
    substring 0 2 (Nat.zero_le 2) (le_refl 2) exab = exab ∧
    substring 0 0 (le_refl 0) (Nat.zero_le 2) exab = String.mkEmpty 0 :=
  ⟨((C7_substring_spec 0 1 (Nat.zero_le 1) (by omega) exab (by decide)).1
      0).trans (by decide),
   (C7_substring_spec 0 1 (Nat.zero_le 1) (by omega) exab (by decide)).2.1,
   (C7_substring_spec 0 1 (Nat.zero_le 1) (by omega) exab (by decide)).2.2.1,
   (C7_substring_spec 0 1 (Nat.zero_le 1) (by omega) exab (by decide)).2.2.2⟩

/-- Claim C8: under the precondition `i < N`, `operator[](i)` returns the
character stored at slot `i` (the bounds-check failure branch is
unreachable); at `i = N` and beyond, the bounds check fires (modelled by
`none`, the diagnostic-then-terminate path); at `i = N - 1` with `N ≥ 1`
indexing succeeds. -/
theorem C8_subscript_spec {N : ℕ} (s : String N) (i : ℕ) :
    (∀ h : i < N, s.subscript i = some (s._arr ⟨i, Nat.lt_succ_of_lt h⟩)) ∧
    (∀ j, N ≤ j → s.subscript j = none) ∧
    (∀ h : 1 ≤ N, s.subscript (N - 1) =
      some (s._arr ⟨N - 1, by omega⟩)) := by
  refine ⟨fun h => ?_, fun j hj => ?_, fun h => ?_⟩
  · simp only [String.subscript]
    rw [dif_pos h]
  · simp only [String.subscript]
    rw [dif_neg (by omega)]
  · simp only [String.subscript]
    rw [dif_pos (by omega)]

/-- Witness for C8 at concrete inputs: on "ab", index 0 reads the character,
index 2 (= N) hits the failure path, index 1 (= N - 1) succeeds. -/
theorem C8_subscript_spec_witness :
    exab.subscript 0 = some 97 ∧ exab.subscript 2 = none ∧
    exab.subscript 1 = some 98 :=
  ⟨((C8_subscript_spec exab 0).1 (by omega)).trans (by decide),
   (C8_subscript_spec exab 0).2.1 2 (by omega),
   ((C8_subscript_spec exab 0).2.2 (by omega)).trans (by decide)⟩

/-- Claim C9: `find(c)` returns the smallest index `i < N` whose character
equals `c` when one exists (the found slot matches and every earlier slot
differs), and the one-past-end sentinel `N` when `c` does not occur among
the `N` content characters (the terminator is never scanned). -/
theorem C9_find_spec {N : ℕ} (s : String N) (c : ℤ) :
    (s.find c ≤ N) ∧
    (∀ h : s.find c < N,
      s._arr ⟨s.find c, Nat.lt_succ_of_lt h⟩ = c) ∧
    (∀ j, j < s.find c → ∀ hN : j < N,
      s._arr ⟨j, Nat.lt_succ_of_lt hN⟩ ≠ c) ∧
    ((∀ i : Fin N, s._arr i.castSucc ≠ c) → s.find c = N) := by
  obtain ⟨h1, h2, h3, h4⟩ := findLoop_spec s c 0
  refine ⟨h1, h2, fun j hlt hN => h3 j (Nat.zero_le j) hlt hN,
    fun hall => h4 fun j hN _ => ?_⟩
  exact hall ⟨j, hN⟩

/-- Witness for C9 at concrete inputs: 99 does not occur in "ab", so `find`
returns the sentinel 2. -/
theorem C9_find_spec_witness : exab.find 99 = 2 :=
  (C9_find_spec exab 99).2.2.2 (by decide)

/-- Claim C10: on arbitrary buffer content, `atoi()` is total and equals the
positional sum of `character - 48` values, reduced modulo `2 ^ w` (the
`std::size_t` width); characters below the zero digit wrap around through
the `int` → `std::size_t` conversion rather than failing. -/
theorem C10_atoi_spec {N : ℕ} (w : ℕ) (s : String N) :
    String.atoi w s =
      String.word w
        (∑ i : Fin N, (s._arr i.castSucc - 48) * 10 ^ (N - 1 - (i : ℕ))) := by
  unfold String.atoi
  rw [atoiLoop_spec w s 0 0 (by positivity)]
  congr 1
  have hsum : ∑ i : Fin N, (s._arr i.castSucc - 48) * 10 ^ (N - 1 - (i : ℕ)) =
      ∑ j in Finset.range N, (chars s j - 48) * 10 ^ (N - 1 - j) := by
    rw [← Fin.sum_univ_eq_sum_range
      (fun j => (chars s j - 48) * 10 ^ (N - 1 - j)) N]
    refine Finset.sum_congr rfl fun i _ => ?_
    rw [chars_lt s i i.isLt]
    rfl
  rw [hsum, Finset.range_eq_Ico]
  simp

/-- Claim C1 fails on the code: `log10<x>` is `x ? 1 + log10<x/10> : 0`,
the digit COUNT of x (not `floor(log10 x)`), so `itoa<42>` is a `String<3>`,
and the digit loop `for (n = x; n > 0; n /= 10)` fills slots `log10 x … 1`,
leaving slot 0 at its zero-initialized value: the content of `itoa<42>` is
`'\0' '4' '2'`, not `"42"`, and `itoa<0>` (whose loop never runs) has
content `'\0'`, not `"0"`. -/
theorem C1_itoa_failing_input :
    log10 42 + 1 = 3 ∧
    (itoa 42).subscript 0 = some 0 ∧
    (itoa 42).subscript 1 = some 52 ∧
    (itoa 42).subscript 2 = some 50 ∧
    log10 0 + 1 = 1 ∧
    (itoa 0).subscript 0 = some 0 := by
  refine ⟨?_, ?_, ?_, ?_, ?_, ?_⟩ <;>
    simp [String.subscript, itoa, array_itoa, itoaLoop, log10, Function.update]

/-- Claim C2 fails on the code: because `itoa<42>` carries a leading
terminator character (see C1), the accumulated `atoi()` value on a 64-bit
word is `(0 - 48) * 100 + (52 - 48) * 10 + (50 - 48)` modulo `2 ^ 64`,
which is `2 ^ 64 - 4758`, not `42`. -/
theorem C2_roundtrip_failing_input :
    String.atoi 64 (itoa 42) = 18446744073709546858 ∧
    String.atoi 64 (itoa 42) ≠ 42 := by
  have h : String.atoi 64 (itoa 42) = 18446744073709546858 := by
    simp [String.atoi, String.atoiLoop, itoa, array_itoa, itoaLoop, log10,
      Function.update, String.word]
  exact ⟨h, by rw [h]; norm_num⟩

end fixed
